import Mathlib

/-!
Verification of the event-stream listener / cursor subsystem of
`backend/app/main.py` (functions `load_last_block`, `reset_last_block`,
`save_last_block`, `network_validator_listener`).

The Python code is shallowly embedded:
* the last-blocks cache (e.g. Redis) becomes an association-list store plus
  flags saying which keys' raw `get`/`set` operations raise;
* `try`/`except` becomes explicit `Except` plumbing, with the caught branch
  folded back into a total function;
* the mutable locals of `network_validator_listener` (`last_block`,
  `seen_logs`) become an explicit `ListenerState` threaded through a per-tick
  transition function;
* the nondeterministic environment of one `while True` iteration (the chain
  height returned by `w3.eth.block_number`, the outcome of each
  `get_logs` call, whether a handler call raises) is a `TickEnv` record, and a
  whole run is a list of such environments.

Block numbers are modelled as `Int` (the initial default `block_number - 1`
may be negative for height 0; Python integers are unbounded).
-/

namespace RwaDesk

/-- A raw log event as the listener uses it: the fields read at lines 144-145
of `main.py` (`ev['transactionHash'].hex()` and `ev['logIndex']`). -/
structure Log where
  txHash : String
  logIndex : Nat
deriving DecidableEq, Repr

/-- An event identity: the `dedupe_key = (network, tx_hash, idx)` of line 146. -/
abbrev Identity := String × String × Nat

/-- Outcome of one `get_logs` call (lines 131-141), classified by what the
listener's `except ValueError` logic does with it:
* `ok logs` — the call returns a list of logs;
* `pruned` — it raises `ValueError` whose first argument is a dict with
  `code == -32000` (the pruned-range condition, lines 136-137);
* `hardError` — any other exception (a non-pruned `ValueError`, which line 141
  re-raises, or any other provider error). -/
inductive FetchResult where
  | ok (logs : List Log)
  | pruned
  | hardError
deriving DecidableEq, Repr

/-- The last-blocks cache handed to the listener. `store` is the key/value
content; `getFails key` (resp. `setFails key`) says whether the raw
`cache.get(key)` (resp. `cache.set(key, ...)`) call raises. -/
structure Cache where
  store : List (String × String)
  getFails : String → Bool
  setFails : String → Bool

/-- Raw `cache.get(key)`: returns the stored string (or `none` when the key is
absent) unless the cache raises. -/
def cacheGet (c : Cache) (key : String) : Except String (Option String) :=
  if c.getFails key then Except.error "cache.get failed"
  else Except.ok (c.store.lookup key)

/-- Raw `cache.set(key, val)`: overwrites the key unless the cache raises (a
failed set leaves the store unchanged). -/
def cacheSet (c : Cache) (key val : String) : Except String Cache :=
  if c.setFails key then Except.error "cache.set failed"
  else Except.ok { c with store := (key, val) :: c.store }

/-- Value of an ASCII decimal digit. -/
def digitVal (c : Char) : Option Nat :=
  if '0' ≤ c ∧ c ≤ '9' then some (c.toNat - '0'.toNat) else none

/-- Accumulating decimal parse of a digit sequence; fails on any non-digit. -/
def parseNatAux : List Char → Nat → Option Nat
  | [], acc => some acc
  | c :: cs, acc =>
    match digitVal c with
    | some d => parseNatAux cs (10 * acc + d)
    | none => none

/-- Decimal parse of a non-empty digit sequence. -/
def parseNat : List Char → Option Nat
  | [] => none
  | cs => parseNatAux cs 0

/-- Integer parse of a string: an optional leading minus sign followed by one
or more decimal digits. This models Python's `int(s)` on the canonical
decimal strings this subsystem stores (`str(block_number)`). -/
def pyIntOfString (s : String) : Option Int :=
  match s.data with
  | '-' :: cs => (parseNat cs).map (fun n => -(n : Int))
  | cs => (parseNat cs).map (fun n => (n : Int))

/-- Python's `int(s)`: yields an integer when the string parses, raises
`ValueError` otherwise. -/
def pyInt (s : String) : Except String Int :=
  match pyIntOfString s with
  | some n => Except.ok n
  | none => Except.error "invalid literal for int()"

/-- The body of `load_last_block`'s `try` block (lines 70-73 of `main.py`):
`val = cache.get(key); if val is not None: return int(val)`, with exceptions
from `cache.get` and `int()` propagating. -/
def loadBody (key : String) (c : Cache) : Except String (Option Int) :=
  match cacheGet c key with
  | Except.error e => Except.error e
  | Except.ok none => Except.ok none
  | Except.ok (some s) =>
    match pyInt s with
    | Except.error e => Except.error e
    | Except.ok n => Except.ok (some n)

/-- `load_last_block(key, default, cache)` (lines 65-76): any exception from
`cache.get` or `int()` is caught (`except Exception: pass`) and the function
falls through to `return default`; a missing key also yields `default`. -/
def load_last_block (key : String) (default : Int) (c : Cache) : Int :=
  match loadBody key c with
  | Except.ok (some n) => n
  | Except.ok none => default
  | Except.error _ => default

/-- `save_last_block(key, block_number, cache)` (lines 81-88): calls
`cache.set(key, str(block_number))` inside `try`/`except`; a failure is
printed and swallowed, leaving the cache as it was. -/
def save_last_block (key : String) (blockNumber : Int) (c : Cache) : Cache :=
  match cacheSet c key (toString blockNumber) with
  | Except.ok c2 => c2
  | Except.error _ => c

/-- `reset_last_block(key, new_value, cache)` (lines 78-79): calls
`cache.set(key, str(new_value))` with NO `try`/`except`, so a set failure
propagates to the caller. -/
def reset_last_block (key : String) (newValue : Int) (c : Cache) : Except String Cache :=
  cacheSet c key (toString newValue)

/-- `save_last_block` viewed in the same observation domain as
`reset_last_block`: an operation that may propagate an exception. It never
does — the `except` clause swallows `cache.set` failures. -/
def runSave (key : String) (blockNumber : Int) (c : Cache) : Except String Cache :=
  Except.ok (save_last_block key blockNumber c)

/-- The environment one `while True` iteration (lines 121-158) interacts with:
the chain height `w3.eth.block_number` (line 123), the outcome of each
`get_logs` call keyed by registry name and requested block range, and whether
`handler(ev, offchain_db)` raises on a given event identity. -/
structure TickEnv where
  height : Int
  fetch : String → Int → Int → FetchResult
  handlerFails : Identity → Bool

/-- The listener's mutable state: `last_block` and `seen_logs`
(lines 106-108). The dedup set is modelled as a list with set-like insertion. -/
structure ListenerState where
  lastBlock : Int
  seen : List Identity
deriving DecidableEq, Repr

/-- Result of the inner `for ev in logs` loop. -/
structure ProcessResult where
  seen : List Identity
  invocations : List Identity
  raised : Bool
deriving DecidableEq, Repr

/-- The `dedupe_key` of line 146. -/
def dedupeKey (network : String) (ev : Log) : Identity :=
  (network, ev.txHash, ev.logIndex)

/-- The `for ev in logs` loop (lines 143-150): skip an identity already in
`seen_logs`, otherwise FIRST add it to `seen_logs` (line 149) and THEN invoke
the handler (line 150). `invocations` records, in order, the identities whose
handler was called; a raising handler call is still an invocation and its
identity stays in `seen`, but it aborts the loop (`raised = true`). -/
def processLogs (network : String) (handlerFails : Identity → Bool) :
    List Log → List Identity → ProcessResult
  | [], seen => ⟨seen, [], false⟩
  | ev :: rest, seen =>
    if dedupeKey network ev ∈ seen then
      processLogs network handlerFails rest seen
    else if handlerFails (dedupeKey network ev) then
      ⟨dedupeKey network ev :: seen, [dedupeKey network ev], true⟩
    else
      { seen := (processLogs network handlerFails rest (dedupeKey network ev :: seen)).seen,
        invocations :=
          dedupeKey network ev ::
            (processLogs network handlerFails rest (dedupeKey network ev :: seen)).invocations,
        raised := (processLogs network handlerFails rest (dedupeKey network ev :: seen)).raised }

/-- Result of the per-contract sweep of one tick. Besides the listener state it
records the observable behaviour used by the specification claims: the handler
invocations in order, whether an exception escaped to the tick's `except`
handler, the `get_logs` calls attempted (contract, from_block, to_block), the
values assigned to `last_block`, and whether a pruned-range (resp. other)
fetch error was encountered. -/
structure SweepResult where
  lastBlock : Int
  seen : List Identity
  invocations : List Identity
  raised : Bool
  fetches : List (String × Int × Int)
  cursorWrites : List Int
  prunedHit : Bool
  hardHit : Bool
deriving DecidableEq, Repr

/-- The `for registry_name, contract in contracts` sweep (lines 125-150), with
the single subscribed event `("PostProof", ev_func)` per contract. Each step
fetches `[last_block + 1, current_block]` with the CURRENT value of
`last_block`; the pruned-range `ValueError` sets `last_block = current_block`
and continues with the next contract (lines 137-140); any other fetch error is
re-raised and aborts the sweep (line 141); a raising handler likewise aborts
the sweep mid-logs. -/
def sweepContracts (network : String) (env : TickEnv) :
    List String → Int → List Identity → SweepResult
  | [], lb, seen =>
    { lastBlock := lb, seen := seen, invocations := [], raised := false,
      fetches := [], cursorWrites := [], prunedHit := false, hardHit := false }
  | c :: rest, lb, seen =>
    match env.fetch c (lb + 1) env.height with
    | FetchResult.pruned =>
      let r := sweepContracts network env rest env.height seen
      { r with
        fetches := (c, lb + 1, env.height) :: r.fetches,
        cursorWrites := env.height :: r.cursorWrites,
        prunedHit := true }
    | FetchResult.hardError =>
      { lastBlock := lb, seen := seen, invocations := [], raised := true,
        fetches := [(c, lb + 1, env.height)], cursorWrites := [],
        prunedHit := false, hardHit := true }
    | FetchResult.ok logs =>
      let p := processLogs network env.handlerFails logs seen
      if p.raised then
        { lastBlock := lb, seen := p.seen, invocations := p.invocations, raised := true,
          fetches := [(c, lb + 1, env.height)], cursorWrites := [],
          prunedHit := false, hardHit := false }
      else
        let r := sweepContracts network env rest lb p.seen
        { r with
          invocations := p.invocations ++ r.invocations,
          fetches := (c, lb + 1, env.height) :: r.fetches }

/-- Observable outcome of one `while True` iteration. `saved` is the value
passed to `save_last_block` this tick (`none` when line 153 is not reached);
`raised = true` means the iteration ended in the `except` branch of line 156
(logged, longer sleep) rather than the normal `time.sleep(3)`. -/
structure TickResult where
  state : ListenerState
  invocations : List Identity
  raised : Bool
  saved : Option Int
  fetches : List (String × Int × Int)
  cursorWrites : List Int
  prunedHit : Bool
  hardHit : Bool
deriving DecidableEq, Repr

/-- One iteration of the `while True` loop (lines 121-158): read the height;
if it is not past `last_block`, do nothing before sleeping (line 124);
otherwise sweep all contracts, and on a clean sweep set
`last_block = current_block` (line 152) and persist it (line 153). An
exception mid-sweep leaves `last_block`/`seen_logs` at whatever the sweep
reached and skips the save. -/
def runTick (network : String) (contracts : List String) (env : TickEnv)
    (st : ListenerState) : TickResult :=
  if st.lastBlock < env.height then
    let s := sweepContracts network env contracts st.lastBlock st.seen
    if s.raised then
      { state := ⟨s.lastBlock, s.seen⟩, invocations := s.invocations, raised := true,
        saved := none, fetches := s.fetches, cursorWrites := s.cursorWrites,
        prunedHit := s.prunedHit, hardHit := s.hardHit }
    else
      { state := ⟨env.height, s.seen⟩, invocations := s.invocations, raised := false,
        saved := some env.height, fetches := s.fetches,
        cursorWrites := s.cursorWrites ++ [env.height],
        prunedHit := s.prunedHit, hardHit := s.hardHit }
  else
    { state := st, invocations := [], raised := false, saved := none,
      fetches := [], cursorWrites := [], prunedHit := false, hardHit := false }

/-- Listener startup (lines 106-108): fresh empty dedup set, cursor key
`f"{network}_all_contracts"`, cursor loaded with default
`w3.eth.block_number - 1`. -/
def initState (network : String) (initialHeight : Int) (cache : Cache) :
    ListenerState :=
  { lastBlock := load_last_block (network ++ "_all_contracts") (initialHeight - 1) cache,
    seen := [] }

/-- Contract preparation (lines 111-117): every registry except
`ValidatorRegistry` is polled. -/
def prepareContracts (registryNames : List String) : List String :=
  registryNames.filter (fun n => n != "ValidatorRegistry")

/-- A run of the listener loop: successive `while True` iterations under the
given sequence of tick environments, threading the state. Returns the final
state and each tick's observable outcome. -/
def runTicks (network : String) (contracts : List String) :
    List TickEnv → ListenerState → ListenerState × List TickResult
  | [], st => (st, [])
  | env :: rest, st =>
    let t := runTick network contracts env st
    let r := runTicks network contracts rest t.state
    (r.1, t :: r.2)

/-- All handler invocations of a run, in order. -/
def runInvocations (network : String) (contracts : List String)
    (envs : List TickEnv) (st : ListenerState) : List Identity :=
  ((runTicks network contracts envs st).2.map TickResult.invocations).flatten

/-- All values assigned to `last_block` during a run (after initialization),
in order. -/
def runWrites (network : String) (contracts : List String)
    (envs : List TickEnv) (st : ListenerState) : List Int :=
  ((runTicks network contracts envs st).2.map TickResult.cursorWrites).flatten

/-! ### Invariants of the inner log loop -/

theorem processLogs_seen_mono (net : String) (hf : Identity → Bool) :
    ∀ (logs : List Log) (seen : List Identity),
      seen ⊆ (processLogs net hf logs seen).seen := by
  intro logs
  induction logs with
  | nil => intro seen; simp [processLogs]
  | cons ev rest ih =>
    intro seen
    simp only [processLogs]
    split_ifs with h1 h2
    · exact ih seen
    · exact fun x hx => List.mem_cons_of_mem _ hx
    · exact fun x hx =>
        ih (dedupeKey net ev :: seen) (List.mem_cons_of_mem _ hx)

theorem processLogs_inv_mem_seen (net : String) (hf : Identity → Bool) :
    ∀ (logs : List Log) (seen : List Identity) (k : Identity),
      k ∈ (processLogs net hf logs seen).invocations →
      k ∈ (processLogs net hf logs seen).seen := by
  intro logs
  induction logs with
  | nil => intro seen k hk; simp [processLogs] at hk
  | cons ev rest ih =>
    intro seen k hk
    simp only [processLogs] at hk ⊢
    split_ifs at hk ⊢ with h1 h2
    · exact ih seen k hk
    · simp only [List.mem_singleton] at hk
      subst hk; exact List.mem_cons_self _ _
    · rcases List.mem_cons.mp hk with hk | hk
      · subst hk
        exact processLogs_seen_mono net hf rest _ (List.mem_cons_self _ _)
      · exact ih _ k hk

theorem processLogs_inv_fresh (net : String) (hf : Identity → Bool) :
    ∀ (logs : List Log) (seen : List Identity) (k : Identity),
      k ∈ (processLogs net hf logs seen).invocations → k ∉ seen := by
  intro logs
  induction logs with
  | nil => intro seen k hk; simp [processLogs] at hk
  | cons ev rest ih =>
    intro seen k hk
    simp only [processLogs] at hk
    split_ifs at hk with h1 h2
    · exact ih seen k hk
    · simp only [List.mem_singleton] at hk
      subst hk; exact h1
    · rcases List.mem_cons.mp hk with hk | hk
      · subst hk; exact h1
      · intro hmem
        exact ih _ k hk (List.mem_cons_of_mem _ hmem)

theorem processLogs_inv_nodup (net : String) (hf : Identity → Bool) :
    ∀ (logs : List Log) (seen : List Identity),
      (processLogs net hf logs seen).invocations.Nodup := by
  intro logs
  induction logs with
  | nil => intro seen; simp [processLogs]
  | cons ev rest ih =>
    intro seen
    simp only [processLogs]
    split_ifs with h1 h2
    · exact ih seen
    · simp
    · refine List.nodup_cons.mpr ⟨?_, ih _⟩
      intro hmem
      exact processLogs_inv_fresh net hf rest _ _ hmem (List.mem_cons_self _ _)

/-! ### Invariants of the per-contract sweep -/

theorem sweep_seen_mono (net : String) (env : TickEnv) :
    ∀ (cts : List String) (lb : Int) (seen : List Identity),
      seen ⊆ (sweepContracts net env cts lb seen).seen := by
  intro cts
  induction cts with
  | nil => intro lb seen; simp [sweepContracts]
  | cons c rest ih =>
    intro lb seen
    rcases hf : env.fetch c (lb + 1) env.height with logs | - | -
    · simp only [sweepContracts, hf]
      by_cases hr : (processLogs net env.handlerFails logs seen).raised
      · simp only [hr, if_true]
        exact processLogs_seen_mono net env.handlerFails logs seen
      · simp only [hr, if_false]
        exact fun x hx =>
          ih lb _ (processLogs_seen_mono net env.handlerFails logs seen hx)
    · simp only [sweepContracts, hf]
      exact ih env.height seen
    · simp only [sweepContracts, hf]
      exact fun x hx => hx

theorem sweep_inv_mem_seen (net : String) (env : TickEnv) :
    ∀ (cts : List String) (lb : Int) (seen : List Identity) (k : Identity),
      k ∈ (sweepContracts net env cts lb seen).invocations →
      k ∈ (sweepContracts net env cts lb seen).seen := by
  intro cts
  induction cts with
  | nil => intro lb seen k hk; simp [sweepContracts] at hk
  | cons c rest ih =>
    intro lb seen k hk
    rcases hf : env.fetch c (lb + 1) env.height with logs | - | -
    · simp only [sweepContracts, hf] at hk ⊢
      by_cases hr : (processLogs net env.handlerFails logs seen).raised
      · simp only [hr, if_true] at hk ⊢
        exact processLogs_inv_mem_seen net env.handlerFails logs seen k hk
      · simp only [hr, if_false] at hk ⊢
        rcases List.mem_append.mp hk with hk | hk
        · exact sweep_seen_mono net env rest lb _
            (processLogs_inv_mem_seen net env.handlerFails logs seen k hk)
        · exact ih lb _ k hk
    · simp only [sweepContracts, hf] at hk ⊢
      exact ih env.height seen k hk
    · simp only [sweepContracts, hf] at hk
      simp at hk

theorem sweep_inv_fresh (net : String) (env : TickEnv) :
    ∀ (cts : List String) (lb : Int) (seen : List Identity) (k : Identity),
      k ∈ (sweepContracts net env cts lb seen).invocations → k ∉ seen := by
  intro cts
  induction cts with
  | nil => intro lb seen k hk; simp [sweepContracts] at hk
  | cons c rest ih =>
    intro lb seen k hk
    rcases hf : env.fetch c (lb + 1) env.height with logs | - | -
    · simp only [sweepContracts, hf] at hk
      by_cases hr : (processLogs net env.handlerFails logs seen).raised
      · simp only [hr, if_true] at hk
        exact processLogs_inv_fresh net env.handlerFails logs seen k hk
      · simp only [hr, if_false] at hk
        rcases List.mem_append.mp hk with hk | hk
        · exact processLogs_inv_fresh net env.handlerFails logs seen k hk
        · intro hmem
          exact ih lb _ k hk (processLogs_seen_mono net env.handlerFails logs seen hmem)
    · simp only [sweepContracts, hf] at hk
      exact ih env.height seen k hk
    · simp only [sweepContracts, hf] at hk
      simp at hk

theorem sweep_inv_nodup (net : String) (env : TickEnv) :
    ∀ (cts : List String) (lb : Int) (seen : List Identity),
      (sweepContracts net env cts lb seen).invocations.Nodup := by
  intro cts
  induction cts with
  | nil => intro lb seen; simp [sweepContracts]
  | cons c rest ih =>
    intro lb seen
    rcases hf : env.fetch c (lb + 1) env.height with logs | - | -
    · simp only [sweepContracts, hf]
      by_cases hr : (processLogs net env.handlerFails logs seen).raised
      · simp only [hr, if_true]
        exact processLogs_inv_nodup net env.handlerFails logs seen
      · simp only [hr, if_false]
        refine List.nodup_append.mpr
          ⟨processLogs_inv_nodup net env.handlerFails logs seen, ih lb _, ?_⟩
        intro k hk1 hk2
        exact sweep_inv_fresh net env rest lb _ k hk2
          (processLogs_inv_mem_seen net env.handlerFails logs seen k hk1)
    · simp only [sweepContracts, hf]
      exact ih env.height seen
    · simp only [sweepContracts, hf]
      simp

theorem sweep_writes_height (net : String) (env : TickEnv) :
    ∀ (cts : List String) (lb : Int) (seen : List Identity),
      ∀ v ∈ (sweepContracts net env cts lb seen).cursorWrites, v = env.height := by
  intro cts
  induction cts with
  | nil => intro lb seen v hv; simp [sweepContracts] at hv
  | cons c rest ih =>
    intro lb seen v hv
    rcases hf : env.fetch c (lb + 1) env.height with logs | - | -
    · simp only [sweepContracts, hf] at hv
      by_cases hr : (processLogs net env.handlerFails logs seen).raised
      · simp only [hr, if_true] at hv
        simp at hv
      · simp only [hr, if_false] at hv
        exact ih lb _ v hv
    · simp only [sweepContracts, hf] at hv
      rcases List.mem_cons.mp hv with hv | hv
      · exact hv
      · exact ih env.height seen v hv
    · simp only [sweepContracts, hf] at hv
      simp at hv

theorem sweep_noWrites_lastBlock (net : String) (env : TickEnv) :
    ∀ (cts : List String) (lb : Int) (seen : List Identity),
      (sweepContracts net env cts lb seen).cursorWrites = [] →
      (sweepContracts net env cts lb seen).lastBlock = lb := by
  intro cts
  induction cts with
  | nil => intro lb seen _; simp [sweepContracts]
  | cons c rest ih =>
    intro lb seen hw
    rcases hf : env.fetch c (lb + 1) env.height with logs | - | -
    · simp only [sweepContracts, hf] at hw ⊢
      by_cases hr : (processLogs net env.handlerFails logs seen).raised
      · simp only [hr, if_true]
      · simp only [hr, if_false] at hw ⊢
        exact ih lb _ hw
    · simp only [sweepContracts, hf] at hw
      simp at hw
    · simp only [sweepContracts, hf]

theorem sweep_writes_lastBlock (net : String) (env : TickEnv) :
    ∀ (cts : List String) (lb : Int) (seen : List Identity),
      (sweepContracts net env cts lb seen).cursorWrites ≠ [] →
      (sweepContracts net env cts lb seen).lastBlock = env.height := by
  intro cts
  induction cts with
  | nil => intro lb seen hw; simp [sweepContracts] at hw
  | cons c rest ih =>
    intro lb seen hw
    rcases hf : env.fetch c (lb + 1) env.height with logs | - | -
    · simp only [sweepContracts, hf] at hw ⊢
      by_cases hr : (processLogs net env.handlerFails logs seen).raised
      · simp only [hr, if_true] at hw
        simp at hw
      · simp only [hr, if_false] at hw ⊢
        exact ih lb _ hw
    · simp only [sweepContracts, hf]
      by_cases hw2 : (sweepContracts net env rest env.height seen).cursorWrites = []
      · exact sweep_noWrites_lastBlock net env rest env.height seen hw2
      · exact ih env.height seen hw2
    · simp only [sweepContracts, hf] at hw
      simp at hw

theorem sweep_prunedFree_noWrites (net : String) (env : TickEnv) :
    ∀ (cts : List String) (lb : Int) (seen : List Identity),
      (sweepContracts net env cts lb seen).prunedHit = false →
      (sweepContracts net env cts lb seen).cursorWrites = [] := by
  intro cts
  induction cts with
  | nil => intro lb seen _; simp [sweepContracts]
  | cons c rest ih =>
    intro lb seen hp
    rcases hf : env.fetch c (lb + 1) env.height with logs | - | -
    · simp only [sweepContracts, hf] at hp ⊢
      by_cases hr : (processLogs net env.handlerFails logs seen).raised
      · simp only [hr, if_true]
      · simp only [hr, if_false] at hp ⊢
        exact ih lb _ hp
    · simp [sweepContracts, hf] at hp
    · simp only [sweepContracts, hf]

theorem sweep_hardHit_raised (net : String) (env : TickEnv) :
    ∀ (cts : List String) (lb : Int) (seen : List Identity),
      (sweepContracts net env cts lb seen).hardHit = true →
      (sweepContracts net env cts lb seen).raised = true := by
  intro cts
  induction cts with
  | nil => intro lb seen hh; simp [sweepContracts] at hh
  | cons c rest ih =>
    intro lb seen hh
    rcases hf : env.fetch c (lb + 1) env.height with logs | - | -
    · simp only [sweepContracts, hf] at hh ⊢
      by_cases hr : (processLogs net env.handlerFails logs seen).raised
      · simp only [hr, if_true]
      · simp only [hr, if_false] at hh ⊢
        exact ih lb _ hh
    · simp only [sweepContracts, hf] at hh ⊢
      exact ih env.height seen hh
    · simp only [sweepContracts, hf]

theorem sweep_clean_fetches (net : String) (env : TickEnv) :
    ∀ (cts : List String) (lb : Int) (seen : List Identity),
      (sweepContracts net env cts lb seen).raised = false →
      (sweepContracts net env cts lb seen).prunedHit = false →
      (sweepContracts net env cts lb seen).fetches =
        cts.map (fun c => (c, lb + 1, env.height)) := by
  intro cts
  induction cts with
  | nil => intro lb seen _ _; simp [sweepContracts]
  | cons c rest ih =>
    intro lb seen hr0 hp0
    rcases hf : env.fetch c (lb + 1) env.height with logs | - | -
    · by_cases hr : (processLogs net env.handlerFails logs seen).raised
      · simp [sweepContracts, hf, hr] at hr0
      · simp only [sweepContracts, hf, hr, Bool.false_eq_true, if_false] at hr0 hp0 ⊢
        simp only [List.map_cons, List.cons.injEq, true_and]
        exact ih lb _ hr0 hp0
    · simp [sweepContracts, hf] at hp0
    · simp [sweepContracts, hf] at hr0

theorem sweep_fetches_head (net : String) (env : TickEnv)
    (c : String) (rest : List String) (lb : Int) (seen : List Identity) :
    (sweepContracts net env (c :: rest) lb seen).fetches.head? =
      some (c, lb + 1, env.height) := by
  rcases hf : env.fetch c (lb + 1) env.height with logs | - | -
  · simp only [sweepContracts, hf]
    by_cases hr : (processLogs net env.handlerFails logs seen).raised
    · simp [hr]
    · simp [hr]
  · simp [sweepContracts, hf]
  · simp [sweepContracts, hf]

theorem sweep_from_high (net : String) (env : TickEnv) :
    ∀ (cts : List String) (seen : List Identity),
      ∀ x ∈ (sweepContracts net env cts env.height seen).fetches,
        x.2.1 = env.height + 1 := by
  intro cts
  induction cts with
  | nil => intro seen x hx; simp [sweepContracts] at hx
  | cons c rest ih =>
    intro seen x hx
    rcases hf : env.fetch c (env.height + 1) env.height with logs | - | -
    · simp only [sweepContracts, hf] at hx
      by_cases hr : (processLogs net env.handlerFails logs seen).raised
      · simp only [hr, if_true] at hx
        simp only [List.mem_singleton] at hx
        subst hx; rfl
      · simp only [hr, if_false] at hx
        rcases List.mem_cons.mp hx with hx | hx
        · subst hx; rfl
        · exact ih _ x hx
    · simp only [sweepContracts, hf] at hx
      rcases List.mem_cons.mp hx with hx | hx
      · subst hx; rfl
      · exact ih seen x hx
    · simp only [sweepContracts, hf] at hx
      simp only [List.mem_singleton] at hx
      subst hx; rfl

/-! ### List helpers for cursor-write traces -/

theorem getLastD_all_eq {h d : Int} :
    ∀ (l : List Int), (∀ v ∈ l, v = h) → l ≠ [] → l.getLastD d = h := by
  intro l
  induction l generalizing d with
  | nil => intro _ hne; exact absurd rfl hne
  | cons x xs ih =>
    intro hall _
    rw [List.getLastD_cons]
    by_cases hxs : xs = []
    · subst hxs
      exact hall x (by simp)
    · exact ih (fun v hv => hall v (by simp [hv])) hxs

theorem getLastD_append_single {x d : Int} :
    ∀ (l : List Int), (l ++ [x]).getLastD d = x := by
  intro l
  induction l generalizing d with
  | nil => rfl
  | cons y ys ih => rw [List.cons_append, List.getLastD_cons]; exact ih

theorem chain_le_of_all_eq {h : Int} :
    ∀ (l : List Int) (lb : Int), lb ≤ h → (∀ v ∈ l, v = h) →
      List.Chain' (· ≤ ·) (lb :: l) := by
  intro l
  induction l with
  | nil => intro lb _ _; simp
  | cons x xs ih =>
    intro lb hle hall
    have hx : x = h := hall x (by simp)
    rw [List.chain'_cons]
    refine ⟨?_, ih x (by simp [hx]) (fun v hv => hall v (by simp [hv]))⟩
    rw [hx]; exact hle

theorem chain_le_append {b : Int} :
    ∀ (l1 : List Int) (a : Int) (l2 : List Int),
      List.Chain' (· ≤ ·) (a :: l1) → l1.getLastD a = b →
      List.Chain' (· ≤ ·) (b :: l2) →
      List.Chain' (· ≤ ·) (a :: (l1 ++ l2)) := by
  intro l1
  induction l1 with
  | nil =>
    intro a l2 _ hlast h2
    have hab : a = b := hlast
    subst hab
    simpa using h2
  | cons x xs ih =>
    intro a l2 h1 hlast h2
    rw [List.cons_append, List.chain'_cons]
    rw [List.chain'_cons] at h1
    rw [List.getLastD_cons] at hlast
    exact ⟨h1.1, ih x l2 h1.2 hlast h2⟩

/-! ### Per-tick facts -/

theorem tick_seen_mono (net : String) (cts : List String) (env : TickEnv)
    (st : ListenerState) : st.seen ⊆ (runTick net cts env st).state.seen := by
  by_cases hgt : st.lastBlock < env.height
  · simp only [runTick, hgt, if_true]
    by_cases hsr : (sweepContracts net env cts st.lastBlock st.seen).raised
    · simp only [hsr, if_true]
      exact sweep_seen_mono net env cts st.lastBlock st.seen
    · simp only [hsr, Bool.false_eq_true, if_false]
      exact sweep_seen_mono net env cts st.lastBlock st.seen
  · simp only [runTick, hgt, if_false]
    exact fun x hx => hx

theorem tick_inv_mem_seen (net : String) (cts : List String) (env : TickEnv)
    (st : ListenerState) (k : Identity)
    (hk : k ∈ (runTick net cts env st).invocations) :
    k ∈ (runTick net cts env st).state.seen := by
  by_cases hgt : st.lastBlock < env.height
  · simp only [runTick, hgt, if_true] at hk ⊢
    by_cases hsr : (sweepContracts net env cts st.lastBlock st.seen).raised
    · simp only [hsr, if_true] at hk ⊢
      exact sweep_inv_mem_seen net env cts st.lastBlock st.seen k hk
    · simp only [hsr, Bool.false_eq_true, if_false] at hk ⊢
      exact sweep_inv_mem_seen net env cts st.lastBlock st.seen k hk
  · simp only [runTick, hgt, if_false] at hk
    simp at hk

theorem tick_inv_fresh (net : String) (cts : List String) (env : TickEnv)
    (st : ListenerState) (k : Identity)
    (hk : k ∈ (runTick net cts env st).invocations) : k ∉ st.seen := by
  by_cases hgt : st.lastBlock < env.height
  · simp only [runTick, hgt, if_true] at hk
    by_cases hsr : (sweepContracts net env cts st.lastBlock st.seen).raised
    · simp only [hsr, if_true] at hk
      exact sweep_inv_fresh net env cts st.lastBlock st.seen k hk
    · simp only [hsr, Bool.false_eq_true, if_false] at hk
      exact sweep_inv_fresh net env cts st.lastBlock st.seen k hk
  · simp only [runTick, hgt, if_false] at hk
    simp at hk

theorem tick_inv_nodup (net : String) (cts : List String) (env : TickEnv)
    (st : ListenerState) : (runTick net cts env st).invocations.Nodup := by
  by_cases hgt : st.lastBlock < env.height
  · simp only [runTick, hgt, if_true]
    by_cases hsr : (sweepContracts net env cts st.lastBlock st.seen).raised
    · simp only [hsr, if_true]
      exact sweep_inv_nodup net env cts st.lastBlock st.seen
    · simp only [hsr, Bool.false_eq_true, if_false]
      exact sweep_inv_nodup net env cts st.lastBlock st.seen
  · simp only [runTick, hgt, if_false]
    simp

theorem tick_chain (net : String) (cts : List String) (env : TickEnv)
    (st : ListenerState) :
    List.Chain' (· ≤ ·) (st.lastBlock :: (runTick net cts env st).cursorWrites) := by
  by_cases hgt : st.lastBlock < env.height
  · simp only [runTick, hgt, if_true]
    by_cases hsr : (sweepContracts net env cts st.lastBlock st.seen).raised
    · simp only [hsr, if_true]
      exact chain_le_of_all_eq _ _ (le_of_lt hgt)
        (sweep_writes_height net env cts st.lastBlock st.seen)
    · simp only [hsr, Bool.false_eq_true, if_false]
      refine chain_le_of_all_eq _ _ (le_of_lt hgt) ?_
      intro v hv
      rcases List.mem_append.mp hv with hv | hv
      · exact sweep_writes_height net env cts st.lastBlock st.seen v hv
      · simpa using hv
  · simp only [runTick, hgt, if_false]
    simp

theorem tick_writes_lastBlock (net : String) (cts : List String) (env : TickEnv)
    (st : ListenerState) :
    (runTick net cts env st).cursorWrites.getLastD st.lastBlock =
      (runTick net cts env st).state.lastBlock := by
  by_cases hgt : st.lastBlock < env.height
  · simp only [runTick, hgt, if_true]
    by_cases hsr : (sweepContracts net env cts st.lastBlock st.seen).raised
    · simp only [hsr, if_true]
      by_cases hw : (sweepContracts net env cts st.lastBlock st.seen).cursorWrites = []
      · rw [hw, sweep_noWrites_lastBlock net env cts st.lastBlock st.seen hw]
        rfl
      · rw [getLastD_all_eq _ (sweep_writes_height net env cts st.lastBlock st.seen) hw,
          sweep_writes_lastBlock net env cts st.lastBlock st.seen hw]
    · simp only [hsr, Bool.false_eq_true, if_false]
      exact getLastD_append_single _
  · simp only [runTick, hgt, if_false]
    rfl

theorem tick_lastBlock_mono (net : String) (cts : List String) (env : TickEnv)
    (st : ListenerState) :
    st.lastBlock ≤ (runTick net cts env st).state.lastBlock := by
  by_cases hgt : st.lastBlock < env.height
  · simp only [runTick, hgt, if_true]
    by_cases hsr : (sweepContracts net env cts st.lastBlock st.seen).raised
    · simp only [hsr, if_true]
      by_cases hw : (sweepContracts net env cts st.lastBlock st.seen).cursorWrites = []
      · rw [sweep_noWrites_lastBlock net env cts st.lastBlock st.seen hw]
      · rw [sweep_writes_lastBlock net env cts st.lastBlock st.seen hw]
        exact le_of_lt hgt
    · simp only [hsr, Bool.false_eq_true, if_false]
      exact le_of_lt hgt
  · simp only [runTick, hgt, if_false]
    exact le_refl _

/-! ### Run-level facts -/

theorem runTicks_cons (net : String) (cts : List String) (env : TickEnv)
    (rest : List TickEnv) (st : ListenerState) :
    runTicks net cts (env :: rest) st =
      ((runTicks net cts rest (runTick net cts env st).state).1,
       runTick net cts env st ::
         (runTicks net cts rest (runTick net cts env st).state).2) := rfl

theorem runInvocations_cons (net : String) (cts : List String) (env : TickEnv)
    (rest : List TickEnv) (st : ListenerState) :
    runInvocations net cts (env :: rest) st =
      (runTick net cts env st).invocations ++
        runInvocations net cts rest (runTick net cts env st).state := by
  simp [runInvocations, runTicks_cons]

theorem runWrites_cons (net : String) (cts : List String) (env : TickEnv)
    (rest : List TickEnv) (st : ListenerState) :
    runWrites net cts (env :: rest) st =
      (runTick net cts env st).cursorWrites ++
        runWrites net cts rest (runTick net cts env st).state := by
  simp [runWrites, runTicks_cons]

theorem run_fresh (net : String) (cts : List String) :
    ∀ (envs : List TickEnv) (st : ListenerState) (k : Identity),
      k ∈ st.seen → k ∉ runInvocations net cts envs st := by
  intro envs
  induction envs with
  | nil => intro st k _; simp [runInvocations, runTicks]
  | cons env rest ih =>
    intro st k hk
    rw [runInvocations_cons]
    intro hmem
    rcases List.mem_append.mp hmem with h | h
    · exact tick_inv_fresh net cts env st k h hk
    · exact ih _ k (tick_seen_mono net cts env st hk) h

theorem run_nodup (net : String) (cts : List String) :
    ∀ (envs : List TickEnv) (st : ListenerState),
      (runInvocations net cts envs st).Nodup := by
  intro envs
  induction envs with
  | nil => intro st; simp [runInvocations, runTicks]
  | cons env rest ih =>
    intro st
    rw [runInvocations_cons]
    refine List.nodup_append.mpr ⟨tick_inv_nodup net cts env st, ih _, ?_⟩
    intro k hk1 hk2
    exact run_fresh net cts rest _ k
      (tick_inv_mem_seen net cts env st k hk1) hk2

theorem run_chain (net : String) (cts : List String) :
    ∀ (envs : List TickEnv) (st : ListenerState),
      List.Chain' (· ≤ ·) (st.lastBlock :: runWrites net cts envs st) := by
  intro envs
  induction envs with
  | nil => intro st; simp [runWrites, runTicks]
  | cons env rest ih =>
    intro st
    rw [runWrites_cons]
    exact chain_le_append _ _ _ (tick_chain net cts env st)
      (tick_writes_lastBlock net cts env st) (ih _)

theorem run_final_mono (net : String) (cts : List String) :
    ∀ (envs : List TickEnv) (st : ListenerState),
      st.lastBlock ≤ (runTicks net cts envs st).1.lastBlock := by
  intro envs
  induction envs with
  | nil => intro st; exact le_refl _
  | cons env rest ih =>
    intro st
    rw [runTicks_cons]
    exact le_trans (tick_lastBlock_mono net cts env st) (ih _)

/-- One-step equation for the sweep when the first contract's fetch hits the
pruned-range condition: `last_block = current_block; continue`. -/
theorem sweepContracts_pruned (net : String) (env : TickEnv) (c : String)
    (rest : List String) (lb : Int) (seen : List Identity)
    (hpr : env.fetch c (lb + 1) env.height = FetchResult.pruned) :
    sweepContracts net env (c :: rest) lb seen =
      { sweepContracts net env rest env.height seen with
        fetches :=
          (c, lb + 1, env.height) ::
            (sweepContracts net env rest env.height seen).fetches,
        cursorWrites :=
          env.height :: (sweepContracts net env rest env.height seen).cursorWrites,
        prunedHit := true } := by
  simp [sweepContracts, hpr]

/-- Under the polling guard, the first `get_logs` call of a tick always asks
for the range starting at the current cursor plus one. -/
theorem tick_fetches_head (net : String) (c : String) (rest : List String)
    (env : TickEnv) (st : ListenerState) (hgt : st.lastBlock < env.height) :
    (runTick net (c :: rest) env st).fetches.head? =
      some (c, st.lastBlock + 1, env.height) := by
  simp only [runTick, hgt, if_true]
  by_cases hsr : (sweepContracts net env (c :: rest) st.lastBlock st.seen).raised
  · simp only [hsr, if_true]
    exact sweep_fetches_head net env c rest st.lastBlock st.seen
  · simp only [hsr, Bool.false_eq_true, if_false]
    exact sweep_fetches_head net env c rest st.lastBlock st.seen

/-! ### Cursor-store facts -/

theorem load_of_parsable (key : String) (default : Int) (c : Cache) (s : String)
    (n : Int) (hg : c.getFails key = false) (hl : c.store.lookup key = some s)
    (hparse : pyIntOfString s = some n) :
    load_last_block key default c = n := by
  simp [load_last_block, loadBody, cacheGet, pyInt, hg, hl, hparse]

theorem load_of_getFails (key : String) (default : Int) (c : Cache)
    (hg : c.getFails key = true) :
    load_last_block key default c = default := by
  simp [load_last_block, loadBody, cacheGet, hg]

theorem load_of_absent (key : String) (default : Int) (c : Cache)
    (hg : c.getFails key = false) (hl : c.store.lookup key = none) :
    load_last_block key default c = default := by
  simp [load_last_block, loadBody, cacheGet, hg, hl]

theorem load_of_unparsable (key : String) (default : Int) (c : Cache) (s : String)
    (hg : c.getFails key = false) (hl : c.store.lookup key = some s)
    (hparse : pyIntOfString s = none) :
    load_last_block key default c = default := by
  simp [load_last_block, loadBody, cacheGet, pyInt, hg, hl, hparse]

theorem save_of_setFails (key : String) (v : Int) (c : Cache)
    (hs : c.setFails key = true) :
    save_last_block key v c = c := by
  simp [save_last_block, cacheSet, hs]

/-- Duplicate-free lists have at most one occurrence of any element, for any
lawful boolean equality. -/
theorem count_le_one_of_nodup {α : Type} [BEq α] [LawfulBEq α] :
    ∀ (l : List α), l.Nodup → ∀ a, l.count a ≤ 1 := by
  intro l
  induction l with
  | nil => intro _ a; simp
  | cons x xs ih =>
    intro h a
    rcases List.nodup_cons.mp h with ⟨hx, hxs⟩
    rw [List.count_cons]
    by_cases hax : a = x
    · subst hax
      have hz : xs.count a = 0 := List.count_eq_zero.mpr hx
      simp [hz]
    · have hbx : (x == a) = false := beq_false_of_ne (fun h => hax h.symm)
      rw [hbx]
      simpa using ih hxs a

/-! ### Claim theorems -/

/-- C1: within one continuous run of a network listener loop (fresh empty
dedup set at startup, arbitrary initial cursor and arbitrary sequence of tick
environments), the registered handler is invoked at most once per event
identity `(network, transactionHash, logIndex)` — even when the same log is
returned by fetches in two different ticks or in overlapping block ranges. -/
theorem handler_invoked_at_most_once (network : String) (contracts : List String)
    (envs : List TickEnv) (lb : Int) (k : Identity) :
    (runInvocations network contracts envs ⟨lb, []⟩).count k ≤ 1 :=
  count_le_one_of_nodup _ (run_nodup network contracts envs ⟨lb, []⟩) k

/-- C2: over any sequence of polling ticks, the trace of values assigned to
`last_block` after initialization, prepended with the initial cursor, is
non-decreasing, and the final cursor is at least the initial one. The loop
itself never calls `reset_last_block`; that administrative override is a
separate operation on the cursor store (the claim's sole exception). -/
theorem cursor_assignments_monotone (network : String) (contracts : List String)
    (envs : List TickEnv) (st : ListenerState) :
    List.Chain' (· ≤ ·) (st.lastBlock :: runWrites network contracts envs st) ∧
    st.lastBlock ≤ (runTicks network contracts envs st).1.lastBlock :=
  ⟨run_chain network contracts envs st, run_final_mono network contracts envs st⟩

/-- C8: on a tick whose chain height does not exceed the cursor, the tick
changes nothing before sleeping: no `get_logs` call, no handler invocation,
dedup set and cursor unchanged, nothing persisted, no error. -/
theorem no_new_blocks_noop (net : String) (cts : List String) (env : TickEnv)
    (st : ListenerState) (hle : env.height ≤ st.lastBlock) :
    runTick net cts env st =
      { state := st, invocations := [], raised := false, saved := none,
        fetches := [], cursorWrites := [], prunedHit := false, hardHit := false } := by
  unfold runTick
  rw [if_neg (not_lt.mpr hle)]

/-- Witness for C8: with the cursor at 10 and the height at 5, the tick is a
no-op. -/
theorem no_new_blocks_noop_witness :
    runTick "eth" ["A"]
        { height := 5, fetch := fun _ _ _ => FetchResult.hardError,
          handlerFails := fun _ => false } ⟨10, []⟩ =
      { state := ⟨10, []⟩, invocations := [], raised := false, saved := none,
        fetches := [], cursorWrites := [], prunedHit := false, hardHit := false } :=
  no_new_blocks_noop "eth" ["A"]
    { height := 5, fetch := fun _ _ _ => FetchResult.hardError,
      handlerFails := fun _ => false } ⟨10, []⟩ (by decide)

/-- C10: an identity is added to `seen_logs` strictly before its handler is
invoked (line 149 precedes line 150), so every invocation of a tick — in
particular one whose handler raised, aborting the tick — leaves its identity
marked seen in the post-tick state, and no continuation of the run (for
instance a re-fetch of the same block range after backoff) ever invokes the
handler for that identity again: the failed dispatch is suppressed, not
retried. -/
theorem marked_seen_before_dispatch (net : String) (cts : List String)
    (env : TickEnv) (envs : List TickEnv) (st : ListenerState) (k : Identity)
    (hk : k ∈ (runTick net cts env st).invocations) :
    k ∈ (runTick net cts env st).state.seen ∧
    k ∉ runInvocations net cts envs (runTick net cts env st).state :=
  ⟨tick_inv_mem_seen net cts env st k hk,
   run_fresh net cts envs _ k (tick_inv_mem_seen net cts env st k hk)⟩

/-- Witness for C10: the handler raises on the single fetched log; its
identity is nevertheless marked seen, and a second tick re-fetching the same
range does not invoke the handler again. -/
theorem marked_seen_before_dispatch_witness :
    ("eth", "0xabc", 2) ∈
      (runTick "eth" ["A"]
        { height := 5, fetch := fun _ _ _ => FetchResult.ok [⟨"0xabc", 2⟩],
          handlerFails := fun _ => true } ⟨0, []⟩).state.seen ∧
    ("eth", "0xabc", 2) ∉
      runInvocations "eth" ["A"]
        [{ height := 5, fetch := fun _ _ _ => FetchResult.ok [⟨"0xabc", 2⟩],
           handlerFails := fun _ => true }]
        (runTick "eth" ["A"]
          { height := 5, fetch := fun _ _ _ => FetchResult.ok [⟨"0xabc", 2⟩],
            handlerFails := fun _ => true } ⟨0, []⟩).state :=
  marked_seen_before_dispatch "eth" ["A"]
    { height := 5, fetch := fun _ _ _ => FetchResult.ok [⟨"0xabc", 2⟩],
      handlerFails := fun _ => true }
    [{ height := 5, fetch := fun _ _ _ => FetchResult.ok [⟨"0xabc", 2⟩],
       handlerFails := fun _ => true }]
    ⟨0, []⟩ ("eth", "0xabc", 2) (by decide)

/-- C3 counterexample: in a tick where contract "A"'s fetch hits the
pruned-range condition and contract "B"'s fetch then fails with a non-pruned
provider error, the claim's conclusion fails — the in-memory cursor HAS been
updated for that tick (10 → 20, by the earlier pruned branch), so the next
tick will not re-fetch from the prior cursor value; only the persistence is
skipped. -/
theorem nonpruned_error_counterexample :
    ((runTick "eth" ["A", "B"]
        { height := 20,
          fetch := fun c _ _ =>
            if c = "A" then FetchResult.pruned else FetchResult.hardError,
          handlerFails := fun _ => false } ⟨10, []⟩).hardHit = true) ∧
    ((runTick "eth" ["A", "B"]
        { height := 20,
          fetch := fun c _ _ =>
            if c = "A" then FetchResult.pruned else FetchResult.hardError,
          handlerFails := fun _ => false } ⟨10, []⟩).saved = none) ∧
    ¬ ((runTick "eth" ["A", "B"]
        { height := 20,
          fetch := fun c _ _ =>
            if c = "A" then FetchResult.pruned else FetchResult.hardError,
          handlerFails := fun _ => false } ⟨10, []⟩).state.lastBlock = 10) := by
  decide

/-- C3 (amended): if a fetch fails with a non-pruned provider error during a
tick in which no pruned-range error occurred, then the tick ends in the
`except` branch (the error is caught at the tick boundary and the loop
continues), the cursor is neither updated nor persisted for that tick, and the
next tick's first fetch re-starts from the same prior cursor value. (When a
pruned-range error occurs earlier in the same tick, the in-memory cursor has
already been advanced to the current height and stays there.) -/
theorem nonpruned_error_preserves_cursor (net : String) (cts : List String)
    (env : TickEnv) (st : ListenerState)
    (hh : (runTick net cts env st).hardHit = true)
    (hp : (runTick net cts env st).prunedHit = false) :
    (runTick net cts env st).raised = true ∧
    (runTick net cts env st).state.lastBlock = st.lastBlock ∧
    (runTick net cts env st).saved = none ∧
    (∀ (env2 : TickEnv) (c : String) (rest : List String),
      cts = c :: rest → st.lastBlock < env2.height →
      (runTick net cts env2 (runTick net cts env st).state).fetches.head? =
        some (c, st.lastBlock + 1, env2.height)) := by
  by_cases hgt : st.lastBlock < env.height
  · have hsH : (sweepContracts net env cts st.lastBlock st.seen).hardHit = true := by
      by_cases hsr : (sweepContracts net env cts st.lastBlock st.seen).raised
      · simpa only [runTick, hgt, if_true, hsr, if_true] using hh
      · simpa only [runTick, hgt, if_true, hsr, Bool.false_eq_true, if_false] using hh
    have hsr : (sweepContracts net env cts st.lastBlock st.seen).raised = true :=
      sweep_hardHit_raised net env cts st.lastBlock st.seen hsH
    have hsp : (sweepContracts net env cts st.lastBlock st.seen).prunedHit = false := by
      simpa only [runTick, hgt, if_true, hsr, if_true] using hp
    have hlb :=
      sweep_noWrites_lastBlock net env cts st.lastBlock st.seen
        (sweep_prunedFree_noWrites net env cts st.lastBlock st.seen hsp)
    have hstate : (runTick net cts env st).state.lastBlock = st.lastBlock := by
      simp only [runTick, hgt, if_true, hsr, if_true]
      exact hlb
    refine ⟨?_, hstate, ?_, ?_⟩
    · simp only [runTick, hgt, if_true, hsr, if_true]
    · simp only [runTick, hgt, if_true, hsr, if_true]
    · intro env2 c rest hcts hgt2
      subst hcts
      have hgt2b : (runTick net (c :: rest) env st).state.lastBlock < env2.height := by
        rw [hstate]; exact hgt2
      rw [tick_fetches_head net c rest env2 _ hgt2b, hstate]
  · exfalso
    simp only [runTick, hgt, if_false] at hh
    exact Bool.noConfusion hh

/-- Witness for C3 (amended): a single contract whose fetch fails hard leaves
the cursor at 10 and persists nothing. -/
theorem nonpruned_error_preserves_cursor_witness :
    (runTick "eth" ["A"]
        { height := 20, fetch := fun _ _ _ => FetchResult.hardError,
          handlerFails := fun _ => false } ⟨10, []⟩).state.lastBlock = 10 ∧
    (runTick "eth" ["A"]
        { height := 20, fetch := fun _ _ _ => FetchResult.hardError,
          handlerFails := fun _ => false } ⟨10, []⟩).saved = none :=
  ⟨(nonpruned_error_preserves_cursor "eth" ["A"]
      { height := 20, fetch := fun _ _ _ => FetchResult.hardError,
        handlerFails := fun _ => false } ⟨10, []⟩ (by decide) (by decide)).2.1,
   (nonpruned_error_preserves_cursor "eth" ["A"]
      { height := 20, fetch := fun _ _ _ => FetchResult.hardError,
        handlerFails := fun _ => false } ⟨10, []⟩ (by decide) (by decide)).2.2.1⟩

/-- C4: when the fetch for contract `c` over `[lb+1, H]` hits the pruned-range
provider error (code -32000), the sweep does not raise from that branch: the
cursor is set to the current height `H` (abandoning the unfetchable range),
the very next `get_logs` call is for the next contract/event pair within the
same tick, the exact range `[lb+1, H]` is never retried for `c` during the
remaining sweep, and whether the tick raises is determined solely by the
remaining pairs. -/
theorem pruned_range_skips_forward (net : String) (env : TickEnv)
    (c c2 : String) (rest : List String) (lb : Int) (seen : List Identity)
    (hlb : lb < env.height)
    (hpr : env.fetch c (lb + 1) env.height = FetchResult.pruned) :
    (sweepContracts net env (c :: c2 :: rest) lb seen).lastBlock = env.height ∧
    (sweepContracts net env (c :: c2 :: rest) lb seen).cursorWrites.head? =
      some env.height ∧
    (sweepContracts net env (c :: c2 :: rest) lb seen).fetches.head? =
      some (c, lb + 1, env.height) ∧
    (sweepContracts net env (c :: c2 :: rest) lb seen).fetches.tail.head? =
      some (c2, env.height + 1, env.height) ∧
    (∀ x ∈ (sweepContracts net env (c :: c2 :: rest) lb seen).fetches.tail,
      x ≠ (c, lb + 1, env.height)) ∧
    (sweepContracts net env (c :: c2 :: rest) lb seen).raised =
      (sweepContracts net env (c2 :: rest) env.height seen).raised := by
  rw [sweepContracts_pruned net env c (c2 :: rest) lb seen hpr]
  have hrL : (sweepContracts net env (c2 :: rest) env.height seen).lastBlock =
      env.height := by
    by_cases hw : (sweepContracts net env (c2 :: rest) env.height seen).cursorWrites = []
    · exact sweep_noWrites_lastBlock net env (c2 :: rest) env.height seen hw
    · exact sweep_writes_lastBlock net env (c2 :: rest) env.height seen hw
  refine ⟨hrL, rfl, rfl, ?_, ?_, rfl⟩
  · exact sweep_fetches_head net env c2 rest env.height seen
  · intro x hx heq
    have hfrom := sweep_from_high net env (c2 :: rest) seen x hx
    rw [heq] at hfrom
    simp only at hfrom
    omega

/-- Witness for C4: contract "A" hits a pruned range over [11, 20]; the cursor
jumps to 20 within the tick. -/
theorem pruned_range_skips_forward_witness :
    (sweepContracts "eth"
        { height := 20,
          fetch := fun c _ _ =>
            if c = "A" then FetchResult.pruned else FetchResult.ok [],
          handlerFails := fun _ => false } ["A", "B"] 10 []).lastBlock = 20 :=
  (pruned_range_skips_forward "eth"
    { height := 20,
      fetch := fun c _ _ =>
        if c = "A" then FetchResult.pruned else FetchResult.ok [],
      handlerFails := fun _ => false } "A" "B" [] 10 [] (by decide) (by decide)).1

/-- C5 counterexample: contract "A" hits a pruned range over [11, 20], so the
shared `last_block` jumps to 20 and contract "B" is then fetched only over the
empty range [21, 20]; the tick completes, the cursor becomes (and is persisted
as) 20, yet no attempted fetch for "B" covers block 15 ≤ 20 — the cursor
advanced past a range never attempted for "B". -/
theorem cursor_coverage_counterexample :
    ((runTick "eth" ["A", "B"]
        { height := 20,
          fetch := fun c _ _ =>
            if c = "A" then FetchResult.pruned else FetchResult.ok [],
          handlerFails := fun _ => false } ⟨10, []⟩).state.lastBlock = 20) ∧
    ((runTick "eth" ["A", "B"]
        { height := 20,
          fetch := fun c _ _ =>
            if c = "A" then FetchResult.pruned else FetchResult.ok [],
          handlerFails := fun _ => false } ⟨10, []⟩).saved = some 20) ∧
    ¬ (∃ call ∈ (runTick "eth" ["A", "B"]
        { height := 20,
          fetch := fun c _ _ =>
            if c = "A" then FetchResult.pruned else FetchResult.ok [],
          handlerFails := fun _ => false } ⟨10, []⟩).fetches,
        call.1 = "B" ∧ call.2.1 ≤ (15 : Int) ∧ (15 : Int) ≤ call.2.2) := by
  decide

/-- C5 (amended): the cursor only ever advances, in a tick free of pruned-range
errors, to the current height after a fetch over the full range
`[cursor+1, H]` was attempted for every registered contract/event pair. A
pruned-range error mid-sweep, however, advances the shared cursor to `H` for
the remaining contracts as well, so their pending ranges are abandoned without
an attempt (see the counterexample). -/
theorem cursor_advance_requires_full_sweep (net : String) (cts : List String)
    (env : TickEnv) (st : ListenerState)
    (hp : (runTick net cts env st).prunedHit = false)
    (hadv : (runTick net cts env st).state.lastBlock ≠ st.lastBlock) :
    (runTick net cts env st).state.lastBlock = env.height ∧
    (runTick net cts env st).raised = false ∧
    ∀ c ∈ cts, (c, st.lastBlock + 1, env.height) ∈ (runTick net cts env st).fetches := by
  by_cases hgt : st.lastBlock < env.height
  · by_cases hsr : (sweepContracts net env cts st.lastBlock st.seen).raised
    · exfalso
      have hsp : (sweepContracts net env cts st.lastBlock st.seen).prunedHit = false := by
        simpa only [runTick, hgt, if_true, hsr, if_true] using hp
      have hlb :=
        sweep_noWrites_lastBlock net env cts st.lastBlock st.seen
          (sweep_prunedFree_noWrites net env cts st.lastBlock st.seen hsp)
      apply hadv
      simp only [runTick, hgt, if_true, hsr, if_true]
      exact hlb
    · have hsp : (sweepContracts net env cts st.lastBlock st.seen).prunedHit = false := by
        simpa only [runTick, hgt, if_true, hsr, Bool.false_eq_true, if_false] using hp
      have hsrf : (sweepContracts net env cts st.lastBlock st.seen).raised = false :=
        Bool.of_not_eq_true hsr
      refine ⟨?_, ?_, ?_⟩
      · simp only [runTick, hgt, if_true, hsr, Bool.false_eq_true, if_false]
      · simp only [runTick, hgt, if_true, hsr, Bool.false_eq_true, if_false]
      · intro c hc
        simp only [runTick, hgt, if_true, hsr, Bool.false_eq_true, if_false]
        rw [sweep_clean_fetches net env cts st.lastBlock st.seen hsrf hsp]
        exact List.mem_map.mpr ⟨c, hc, rfl⟩
  · exfalso
    apply hadv
    simp only [runTick, hgt, if_false]

/-- Witness for C5 (amended): a clean single-contract tick advances the cursor
from 10 to 20 having attempted the fetch over [11, 20]. -/
theorem cursor_advance_requires_full_sweep_witness :
    (runTick "eth" ["A"]
        { height := 20, fetch := fun _ _ _ => FetchResult.ok [],
          handlerFails := fun _ => false } ⟨10, []⟩).state.lastBlock = 20 :=
  (cursor_advance_requires_full_sweep "eth" ["A"]
    { height := 20, fetch := fun _ _ _ => FetchResult.ok [],
      handlerFails := fun _ => false } ⟨10, []⟩ (by decide) (by decide)).1

/-- C6: the cursor-store contract. `load_last_block` is total (every
exception of the `try` body is caught): it returns the stored value parsed as
an integer when the raw get succeeds and the value is present and parsable,
and the caller-supplied default when the get raises, the key is absent, or the
value is unparsable. `save_last_block` is total (a set failure is logged and
swallowed, leaving the store unchanged), and after a failed save a fresh
load of a previously-absent key returns the default rather than the value
whose save failed. -/
theorem cursor_store_contract (key : String) (default v : Int) (c : Cache) :
    (∀ s n, c.getFails key = false → c.store.lookup key = some s →
      pyIntOfString s = some n → load_last_block key default c = n) ∧
    (c.getFails key = true → load_last_block key default c = default) ∧
    (c.getFails key = false → c.store.lookup key = none →
      load_last_block key default c = default) ∧
    (∀ s, c.getFails key = false → c.store.lookup key = some s →
      pyIntOfString s = none → load_last_block key default c = default) ∧
    (c.setFails key = true → save_last_block key v c = c) ∧
    (c.setFails key = true → c.getFails key = false →
      c.store.lookup key = none →
      load_last_block key default (save_last_block key v c) = default) := by
  refine ⟨?_, ?_, ?_, ?_, ?_, ?_⟩
  · intro s n hg hl hparse
    exact load_of_parsable key default c s n hg hl hparse
  · intro hg
    exact load_of_getFails key default c hg
  · intro hg hl
    exact load_of_absent key default c hg hl
  · intro s hg hl hparse
    exact load_of_unparsable key default c s hg hl hparse
  · intro hs
    exact save_of_setFails key v c hs
  · intro hs hg hl
    rw [save_of_setFails key v c hs]
    exact load_of_absent key default c hg hl

/-- Witness for C6: a store whose set raises — `save` is a no-op, the later
load returns the default 7 (not 42), and on a healthy store a stored "41"
loads as 41. -/
theorem cursor_store_contract_witness :
    save_last_block "k" 42
        { store := [], getFails := fun _ => false, setFails := fun _ => true } =
      { store := [], getFails := fun _ => false, setFails := fun _ => true } ∧
    load_last_block "k" 7
        (save_last_block "k" 42
          { store := [], getFails := fun _ => false, setFails := fun _ => true }) = 7 ∧
    load_last_block "k" 7
        { store := [("k", "41")], getFails := fun _ => false,
          setFails := fun _ => false } = 41 :=
  ⟨(cursor_store_contract "k" 7 42
      { store := [], getFails := fun _ => false, setFails := fun _ => true }).2.2.2.2.1
      rfl,
   (cursor_store_contract "k" 7 42
      { store := [], getFails := fun _ => false, setFails := fun _ => true }).2.2.2.2.2
      rfl rfl rfl,
   (cursor_store_contract "k" 7 42
      { store := [("k", "41")], getFails := fun _ => false,
        setFails := fun _ => false }).1 "41" 41 rfl rfl (by decide)⟩

/-- C7: when no cursor is stored for the network's key (or the raw get raises,
or the stored value does not parse as an integer), the listener initializes
its cursor to the current chain height minus 1, over the key
`f"{network}_all_contracts"`. -/
theorem initial_cursor_default (network : String) (h : Int) (cache : Cache)
    (habs : cache.getFails (network ++ "_all_contracts") = true ∨
      cache.store.lookup (network ++ "_all_contracts") = none ∨
      ∃ s, cache.store.lookup (network ++ "_all_contracts") = some s ∧
        pyIntOfString s = none) :
    (initState network h cache).lastBlock = h - 1 ∧
    (initState network h cache).seen = [] := by
  refine ⟨?_, rfl⟩
  rcases habs with hg | hl | ⟨s, hl, hparse⟩
  · exact load_of_getFails (network ++ "_all_contracts") (h - 1) cache hg
  · by_cases hg : cache.getFails (network ++ "_all_contracts") = true
    · exact load_of_getFails (network ++ "_all_contracts") (h - 1) cache hg
    · exact load_of_absent (network ++ "_all_contracts") (h - 1) cache
        (Bool.of_not_eq_true hg) hl
  · by_cases hg : cache.getFails (network ++ "_all_contracts") = true
    · exact load_of_getFails (network ++ "_all_contracts") (h - 1) cache hg
    · exact load_of_unparsable (network ++ "_all_contracts") (h - 1) cache s
        (Bool.of_not_eq_true hg) hl hparse

/-- Witness for C7: cursor absent, current height 100 — the loop starts at 99. -/
theorem initial_cursor_default_witness :
    (initState "eth" 100
        { store := [], getFails := fun _ => false,
          setFails := fun _ => false }).lastBlock = 99 := by
  have hres := initial_cursor_default "eth" 100
    { store := [], getFails := fun _ => false, setFails := fun _ => false }
    (Or.inr (Or.inl rfl))
  simpa using hres.1

/-- C9 counterexample: `reset_last_block` does NOT have the same error
behavior as `save_last_block` — on a store whose set raises, `reset`
propagates the exception while `save` swallows it. -/
theorem reset_save_divergence :
    reset_last_block "eth_all_contracts" 42
        { store := [], getFails := fun _ => false, setFails := fun _ => true } ≠
      runSave "eth_all_contracts" 42
        { store := [], getFails := fun _ => false, setFails := fun _ => true } := by
  simp [reset_last_block, runSave, cacheSet]

/-- C9 (amended): `reset_last_block` performs the same underlying write as
`save_last_block` (a `cache.set` of the decimal string) and has the identical
effect on the store when the write succeeds; the two differ only in error
behavior: on a failing write, `save` swallows the exception and leaves the
cache unchanged, while `reset` propagates it. -/
theorem reset_save_same_write_path (key : String) (v : Int) (c : Cache) :
    (c.setFails key = false →
      reset_last_block key v c = Except.ok (save_last_block key v c)) ∧
    (c.setFails key = true →
      reset_last_block key v c = Except.error "cache.set failed" ∧
      save_last_block key v c = c) := by
  constructor
  · intro hs
    simp [reset_last_block, save_last_block, cacheSet, hs]
  · intro hs
    constructor
    · simp [reset_last_block, cacheSet, hs]
    · simp [save_last_block, cacheSet, hs]

/-- Witness for C9 (amended): both the failing-write divergence and the
matching success path, at concrete caches. -/
theorem reset_save_same_write_path_witness :
    reset_last_block "k" 5
        { store := [], getFails := fun _ => false, setFails := fun _ => true } =
      Except.error "cache.set failed" ∧
    save_last_block "k" 5
        { store := [], getFails := fun _ => false, setFails := fun _ => true } =
      { store := [], getFails := fun _ => false, setFails := fun _ => true } ∧
    reset_last_block "k" 5
        { store := [], getFails := fun _ => false, setFails := fun _ => false } =
      Except.ok (save_last_block "k" 5
        { store := [], getFails := fun _ => false, setFails := fun _ => false }) :=
  ⟨((reset_save_same_write_path "k" 5
      { store := [], getFails := fun _ => false, setFails := fun _ => true }).2 rfl).1,
   ((reset_save_same_write_path "k" 5
      { store := [], getFails := fun _ => false, setFails := fun _ => true }).2 rfl).2,
   (reset_save_same_write_path "k" 5
      { store := [], getFails := fun _ => false, setFails := fun _ => false }).1 rfl⟩

end RwaDesk
